import Mathlib

set_option maxRecDepth 4000

/-!
Verification development for the NL2SQL backend (FastAPI + DuckDB + LangGraph).

The definitions below are shallow embeddings of the Python source under
`backend/app/services/`:
  * `agent_service.py`   — workflow nodes (`sql_corrector_node`,
    `sql_validator_node`, `sql_executor_node`, `_extract_sql`,
    `_fix_table_names`);
  * `duckdb_service.py`  — `validate_table_name`, `execute_query`,
    `load_csv`, `delete_table`, `get_schema`, `get_table_content`,
    `get_row_count`, `get_all_schemas` and the schema cache;
  * `schema_tools.py`    — `validate_sql`, `_find_similar_name`,
    `_map_concept_to_column` (the "amount" selection), `get_required_joins`.

Strings are modelled as Lean `String` / `List Char`.  Python regular
expressions that appear in the source are small and fixed, and are embedded
as explicit scanning functions over `List Char`, documented at each site.
Calls into the external collaborators (the DuckDB connection, the Chroma
vector store, the Ollama LLM) are modelled as explicit function parameters
("oracles"), since their behaviour is outside the program text.
-/

namespace NL2SQL

/-- Single ASCII apostrophe (codepoint 39), used to build the SQL string
literals that appear in the Python source. -/
def sq : String := String.singleton (Char.ofNat 39)

/-- Word character in the sense of the regex `\w` (ASCII approximation:
`[A-Za-z0-9_]`, stated on code points).  All literals in the source
patterns are ASCII, so this only approximates `\w` on exotic neighbouring
characters. -/
def isWordChar (c : Char) : Bool :=
  (65 ≤ c.toNat && c.toNat ≤ 90) || (97 ≤ c.toNat && c.toNat ≤ 122)
    || (48 ≤ c.toNat && c.toNat ≤ 57) || c.toNat == 95

/-- Case-insensitive equality of character lists (regex `IGNORECASE`). -/
def icaseEq (a b : List Char) : Bool := a.map Char.toLower == b.map Char.toLower

/-- Case-insensitive "starts with" on character lists. -/
def icaseStarts : List Char → List Char → Bool
  | [], _ => true
  | _ :: _, [] => false
  | k :: ks, c :: cs => (k.toLower == c.toLower) && icaseStarts ks cs

/-- Exact (case-sensitive) prefix test on character lists. -/
def listStarts : List Char → List Char → Bool
  | [], _ => true
  | _ :: _, [] => false
  | n :: ns, c :: cs => (n == c) && listStarts ns cs

/-- Exact substring containment on character lists (Python's `in`). -/
def containsList (needle : List Char) : List Char → Bool
  | [] => needle.isEmpty
  | c :: cs => listStarts needle (c :: cs) || containsList needle cs

/-- Python's `needle in hay` on strings (case-sensitive substring test). -/
def containsSub (needle hay : String) : Bool := containsList needle.data hay.data

/-- Python's `s.strip()`: drop leading and trailing whitespace. -/
def pyStrip (s : String) : String :=
  ⟨((s.data.dropWhile Char.isWhitespace).reverse.dropWhile Char.isWhitespace).reverse⟩

/-- Python's `s.lower()` (ASCII case mapping). -/
def pyLower (s : String) : String := ⟨s.data.map Char.toLower⟩

/-- Python's `s.upper()` (ASCII case mapping). -/
def pyUpper (s : String) : String := ⟨s.data.map Char.toUpper⟩

/-- Python's `s.startswith(pre)`. -/
def pyStartsWith (pre s : String) : Bool := listStarts pre.data s.data

/-- Python's `s.endswith(suf)`. -/
def pyEndsWith (suf s : String) : Bool := listStarts suf.data.reverse s.data.reverse

/-- Drop the last `n` characters (`s[:-n]`). -/
def pyDropRight (n : Nat) (s : String) : String :=
  ⟨s.data.take (s.data.length - n)⟩

/-- Python's `s.split('\n')` (keeps empty fields, never returns `[]`). -/
def splitLinesAux (cur : List Char) : List Char → List String
  | [] => [⟨cur.reverse⟩]
  | c :: cs =>
    if c == '\n' then String.mk cur.reverse :: splitLinesAux [] cs
    else splitLinesAux (c :: cur) cs

/-- Python's `s.split('\n')`. -/
def pySplitLines (s : String) : List String := splitLinesAux [] s.data

/-- Python's `sep.join(xs)`. -/
def joinSep (sep : String) : List String → String
  | [] => ""
  | [x] => x
  | x :: xs => x ++ sep ++ joinSep sep xs

/-- Python's `s.rstrip(c)` for a single character: drop all trailing `c`. -/
def rstripChar (c : Char) (s : String) : String :=
  ⟨(s.data.reverse.dropWhile (fun d => d == c)).reverse⟩

/-- Python's `s.strip('"')`: drop all leading and trailing quote characters. -/
def stripQuotes (s : List Char) : List Char :=
  ((s.dropWhile (fun d => d == '"')).reverse.dropWhile (fun d => d == '"')).reverse

/-! ### Word-boundary substitution (`re.sub` with `\b<literal>\b` patterns)

`AgentService._fix_table_names` applies `re.sub(pattern, repl, sql,
flags=re.IGNORECASE)` for a fixed dictionary of patterns, each of the shape
`\b<literal>\b` where `<literal>` consists of word characters only,
optionally followed by the negative lookaheads `(?!\s+AS)` / `(?!\s+FROM)`.

A match of `\b<lit>\b` (case-insensitive) is exactly a maximal run of word
characters that is case-insensitively equal to `<lit>`; distinct matches are
disjoint, and `re.sub` replaces every one of them, scanning left to right,
with lookaheads evaluated on the text following the run.  `reSub` below
implements exactly that: it copies non-word characters unchanged and
processes each maximal word run atomically. -/

/-- One `_fix_table_names` pattern: `\b<lit>\b(?!\s+AS)?(?!\s+FROM)?` with
replacement `repl` (no group references occur in the source replacements). -/
structure Pat where
  lit : List Char
  notAS : Bool
  notFROM : Bool
  repl : List Char
deriving Repr, DecidableEq

/-- `afterWs kw t`: the regex `\s*kw` matches at the start of `t`
(case-insensitively), i.e. optional whitespace then `kw`. -/
def afterWs (kw : List Char) : List Char → Bool
  | [] => icaseStarts kw []
  | c :: t => if c.isWhitespace then afterWs kw t else icaseStarts kw (c :: t)

/-- `wsThen kw t`: the regex `\s+kw` matches at the start of `t`:
at least one whitespace character, then `kw` (case-insensitively).
(The first character of `kw` is a word character, hence not whitespace, so
greedy matching with backtracking coincides with this formulation.) -/
def wsThen (kw : List Char) : List Char → Bool
  | [] => false
  | c :: t => c.isWhitespace && afterWs kw t

/-- Evaluate the negative lookaheads of a pattern on the text `t` that
follows a matched word run: the match is retained iff no declared
lookahead fires. -/
def lookPass (p : Pat) (t : List Char) : Bool :=
  (!p.notAS || !wsThen "as".data t) && (!p.notFROM || !wsThen "from".data t)

/-- `re.sub` of one `\b<lit>\b` pattern (with optional lookaheads) over a
character list: maximal word runs equal (case-insensitively) to the literal
and passing the lookaheads are replaced, everything else is copied. -/
def reSub (p : Pat) : List Char → List Char
  | [] => []
  | c :: cs =>
    if isWordChar c then
      (if icaseEq (c :: cs.takeWhile isWordChar) p.lit
          && lookPass p (cs.dropWhile isWordChar)
       then p.repl else c :: cs.takeWhile isWordChar)
        ++ reSub p (cs.dropWhile isWordChar)
    else
      c :: reSub p cs
termination_by s => s.length
decreasing_by
  · exact Nat.lt_succ_of_le ((List.dropWhile_suffix isWordChar).sublist.length_le)
  · exact Nat.lt_succ_of_le (Nat.le_refl _)

/-- The replacement used for the `montant` / `chiffre_affaires` column
patterns: `CAST(REPLACE(CDE_LIGNE_IMPUTATION_MONTANT_COMMANDEE_NETTE, ',', '.') AS DOUBLE)`. -/
def montantRepl : String :=
  "CAST(REPLACE(CDE_LIGNE_IMPUTATION_MONTANT_COMMANDEE_NETTE, " ++ sq ++ ","
    ++ sq ++ ", " ++ sq ++ "." ++ sq ++ ") AS DOUBLE)"

/-- The `table_mappings` dictionary of `_fix_table_names`, in insertion
order (Python dicts iterate in insertion order). -/
def tablePatterns : List Pat :=
  [ ⟨"factures".data, false, false, "IA_Factures".data⟩,
    ⟨"commandes".data, false, false, "IA_Commandes".data⟩,
    ⟨"operations".data, false, false, "IA_Operations".data⟩,
    ⟨"reglements".data, false, false, "IA_Reglements".data⟩,
    ⟨"depenses".data, false, false, "IA_Depenses".data⟩,
    ⟨"lien_operation_tg".data, false, false, "IA_Lien_Operation_TG".data⟩,
    ⟨"ia_factures".data, false, false, "IA_Factures".data⟩,
    ⟨"ia_commandes".data, false, false, "IA_Commandes".data⟩,
    ⟨"ia_operations".data, false, false, "IA_Operations".data⟩,
    ⟨"ia_reglements".data, false, false, "IA_Reglements".data⟩,
    ⟨"ia_depenses".data, false, false, "IA_Depenses".data⟩,
    ⟨"ia_lien_operation_tg".data, false, false, "IA_Lien_Operation_TG".data⟩,
    ⟨"facture".data, false, false, "IA_Factures".data⟩,
    ⟨"commande".data, false, false, "IA_Commandes".data⟩,
    ⟨"operation".data, false, false, "IA_Operations".data⟩,
    ⟨"reglement".data, false, false, "IA_Reglements".data⟩,
    ⟨"depense".data, false, false, "IA_Depenses".data⟩ ]

/-- The `column_mappings` dictionary of `_fix_table_names`, in insertion
order.  `annee` carries `(?!\s+AS)`; `montant` carries both
`(?!\s+AS)(?!\s+FROM)`. -/
def columnPatterns : List Pat :=
  [ ⟨"code_tache".data, false, false, "CDE_ID_TACHE".data⟩,
    ⟨"tache".data, false, false, "CDE_ID_TACHE".data⟩,
    ⟨"code_projet".data, false, false, "CDE_ID_PROJET".data⟩,
    ⟨"projet".data, false, false, "CDE_ID_PROJET".data⟩,
    ⟨"trigramme".data, false, false, "CDE_TG".data⟩,
    ⟨"date_facture".data, false, false, "FACF_D_DATE_FACTURE".data⟩,
    ⟨"date_commande".data, false, false, "CDE_DATE_COMMANDE".data⟩,
    ⟨"annee".data, true, false, "annee".data⟩,
    ⟨"montant".data, true, true, montantRepl.data⟩,
    ⟨"chiffre_affaires".data, false, false, montantRepl.data⟩,
    ⟨"chiffre_daffaires".data, false, false, montantRepl.data⟩ ]

/-- All `_fix_table_names` patterns: table mappings first, then column
mappings, exactly as the two `re.sub` loops run in the source. -/
def fixPatterns : List Pat := tablePatterns ++ columnPatterns

/-- Apply a list of patterns in order (the two `for pattern, replacement`
loops of `_fix_table_names`). -/
def applyPats (ps : List Pat) (s : List Char) : List Char :=
  ps.foldl (fun acc p => reSub p acc) s

/-- `AgentService._fix_table_names`: deterministic name-normalisation pass
mapping known synonyms/misspellings of table and column names to canonical
forms. -/
def fix_table_names (sql : String) : String := ⟨applyPats fixPatterns sql.data⟩

/-! ### `AgentService._extract_sql` (agent_service.py)

Extraction of a single SQL statement from raw LLM output.  The regexes of
the source are embedded as explicit scanners:
  * the code-fence search  ```` ```(?:sql)?\s*(.*?)``` ````  (DOTALL,
    IGNORECASE): content between the first pair of triple backticks, after
    an optional `sql` tag and leading whitespace;
  * the keyword search `(?i)\b(SELECT|WITH)\s`: the first word-boundary
    occurrence of `SELECT` or `WITH` followed by one whitespace character.
The `sqlparse` step of the source is guarded by `except ImportError`; the
embedding models the basic-extraction path taken when the library is
absent (the claims below are about branches that return before it). -/

/-- The `non_sql_indicators` list of `_extract_sql` (substring tests against
the lower-cased, stripped raw output). -/
def nonSqlIndicators : List String :=
  ["import ", "def ", "print(", "pandas", "pd.", "df.", "python",
   "```python", "excel", ".xlsx", ".csv", "read_csv", "dataframe",
   "for ", "while ", "if __name__", "class ", "return ", "lambda"]

/-- The sentinel invalid statement returned on generation failure:
`SELECT 'ERROR: No valid SQL generated' AS error`. -/
def sentinelSQL : String :=
  "SELECT " ++ sq ++ "ERROR: No valid SQL generated" ++ sq ++ " AS error"

/-- Suffix following the first occurrence of three backticks, if any. -/
def afterTicks : List Char → Option (List Char)
  | [] => none
  | c :: cs =>
    if listStarts "```".data (c :: cs) then some (cs.drop 2) else afterTicks cs

/-- Content strictly before the first occurrence of three backticks. -/
def beforeTicks : List Char → Option (List Char)
  | [] => none
  | c :: cs =>
    if listStarts "```".data (c :: cs) then some []
    else (beforeTicks cs).map (fun r => c :: r)

/-- Capture group of ```` ```(?:sql)?\s*(.*?)``` ````: after the opening
fence, drop an optional case-insensitive `sql` tag, drop leading
whitespace, then take everything up to the closing fence (`none` when the
pattern does not match anywhere). -/
def codeBlockContent (raw : List Char) : Option (List Char) :=
  match afterTicks raw with
  | none => none
  | some rest =>
    let rest2 := if icaseStarts "sql".data rest then rest.drop 3 else rest
    beforeTicks (rest2.dropWhile Char.isWhitespace)

/-- Does `kw` occur (case-insensitively) at the head of `s`, immediately
followed by one whitespace character (`\s`)? -/
def kwThenSpace (kw : List Char) (s : List Char) : Bool :=
  icaseStarts kw s &&
    (match s.drop kw.length with
     | [] => false
     | d :: _ => d.isWhitespace)

/-- Scanner for `(?i)\b(SELECT|WITH)\s`: returns the suffix of the input
starting at the first match, tracking whether the previous character was a
word character for the `\b` test. -/
def findSW (prevWord : Bool) : List Char → Option (List Char)
  | [] => none
  | c :: cs =>
    if !prevWord && (kwThenSpace "select".data (c :: cs)
                      || kwThenSpace "with".data (c :: cs))
    then some (c :: cs)
    else findSW (isWordChar c) cs

/-- Python `sql[:-3] if sql.endswith("```") else sql`. -/
def dropEndTicks (s : String) : String :=
  if pyEndsWith "```" s then pyDropRight 3 s else s

/-- Comment keywords at which the trailing-line cleanup stops
(`'--'`-prefixed lines). -/
def commentStopKws : List String := ["explanation", "note:", "returns", "résultat"]

/-- The `stop_patterns` list of `_extract_sql` step 6. -/
def stopPatterns : List String :=
  ["this query", "note:", "the above", "this will",
   "cette requête", "voici", "cela", "remarque:", "le résultat"]

/-- One line of the step-6 cleanup triggers a `break`. -/
def lineStops (line : String) : Bool :=
  let stripped := pyStrip line
  (pyStartsWith "--" stripped
      && commentStopKws.any (fun kw => containsSub kw (pyLower stripped)))
    || stopPatterns.any (fun p => pyStartsWith p (pyLower stripped))

/-- The `clean_lines` loop of step 6: keep lines until one stops the scan. -/
def takeCleanLines : List String → List String
  | [] => []
  | l :: ls => if lineStops l then [] else l :: takeCleanLines ls

/-- Steps 4–7 of `_extract_sql`, common to both extraction branches:
cut anything before the first `SELECT`/`WITH` token, basic cleanup
(`sqlparse` unavailable), strip trailing semicolons and explanatory lines,
and apply `_fix_table_names`. -/
def extractTail (sql0 : String) : String :=
  let sql1 := match findSW false sql0.data with
              | some sfx => String.mk sfx
              | none => sql0
  let sql2 := pyStrip (rstripChar ';' sql1)
  let clean := takeCleanLines (pySplitLines sql2)
  let result := pyStrip (rstripChar ';' (pyStrip (joinSep "\n" clean)))
  fix_table_names result

/-- `AgentService._extract_sql`: extract and validate SQL from LLM output,
rejecting non-SQL code with the sentinel invalid statement. -/
def extract_sql (raw : String) : String :=
  let rawLower := pyLower (pyStrip raw)
  if nonSqlIndicators.any (fun ind => containsSub ind rawLower) then
    sentinelSQL
  else
    match codeBlockContent raw.data with
    | some content => extractTail (pyStrip (String.mk content))
    | none =>
      match findSW false raw.data with
      | some sfx => extractTail (pyStrip (dropEndTicks (String.mk sfx)))
      | none => sentinelSQL

/-! ### `AgentService.sql_corrector_node` and the retry bound -/

/-- Python truthiness of the `sql_error` state entry (`None` and `""` are
falsy). -/
def errTruthy : Option String → Bool
  | none => false
  | some s => !(s == "")

/-- The slice of the LangGraph turn state read by the corrector. -/
structure CorrectorState where
  sql_query : String
  sql_error : Option String
  sql_retry_count : Nat
deriving Repr, DecidableEq

/-- The state update returned by the corrector node.  `sql_query := some q`
means the node writes that key; `clears_error` records the
`"sql_error": None` write of the successful-correction branch.  (The
`messages` entry only carries UI text and is omitted.) -/
structure CorrectorResult where
  next_step : String
  sql_retry_count : Nat
  sql_query : Option String
  clears_error : Bool
deriving Repr, DecidableEq

/-- `max_retries` in `sql_corrector_node`. -/
def max_retries : Nat := 3

/-- `AgentService.sql_corrector_node`.  `correctOut` is the pair
`(corrected_sql, changes)` returned by the external
`schema_tools.correct_sql` call. -/
def sql_corrector_node (st : CorrectorState) (correctOut : String × List String) :
    CorrectorResult :=
  if max_retries ≤ st.sql_retry_count then
    ⟨"data_analyst", 0, none, false⟩
  else if !errTruthy st.sql_error then
    ⟨"sql_validator", st.sql_retry_count + 1, none, false⟩
  else if !correctOut.2.isEmpty then
    ⟨"sql_validator", st.sql_retry_count + 1, some correctOut.1, true⟩
  else
    ⟨"data_analyst", st.sql_retry_count + 1, none, false⟩

/-- The nodes of a turn that can write `sql_retry_count`: the corrector
(with its external correction outcome) and the executor on success
(`"sql_retry_count": 0`).  All other node outcomes leave the counter
untouched (no other `return` in `agent_service.py` carries the key). -/
inductive TurnEvent where
  | corrector (q : String) (err : Option String) (correctOut : String × List String)
  | executorSuccess
  | other
deriving Repr

/-- Effect of one node execution on the `sql_retry_count` entry. -/
def retryStep (n : Nat) : TurnEvent → Nat
  | .corrector q err co => (sql_corrector_node ⟨q, err, n⟩ co).sql_retry_count
  | .executorSuccess => 0
  | .other => n

/-- The `sql_retry_count` after a sequence of node executions, starting
from a fresh turn (`state.get("sql_retry_count", 0)` yields 0). -/
def runRetries (evs : List TurnEvent) : Nat := evs.foldl retryStep 0

/-! ### `AgentService.sql_validator_node` / `sql_executor_node` guards -/

/-- Rows returned by `DuckDBService.execute_query`; cell serialisation
(datetime → ISO text, bytes → decoded text) preserves row count and is
abstracted to strings. -/
structure QueryResult where
  columns : List String
  data : List (List String)
deriving Repr, DecidableEq

/-- Result of `schema_tools.validate_sql` (dataclass `SQLValidationResult`;
`corrected_sql` is declared by the dataclass but never set). -/
structure SQLValidationResult where
  is_valid : Bool
  errors : List String
  suggestions : List String
  corrected_sql : Option String
deriving Repr, DecidableEq

/-- State update of the validator node (messages omitted). -/
structure ValidatorResult where
  next_step : String
  sql_error : Option String
deriving Repr, DecidableEq

/-- `AgentService.sql_validator_node`.  `validate` is the external
`schema_tools.validate_sql` call; the guard returns before invoking it. -/
def sql_validator_node (validate : String → SQLValidationResult)
    (sql_query : Option String) : ValidatorResult :=
  let q := sql_query.getD ""
  if q == "" || containsSub "ERROR" q then
    ⟨"sql_corrector", none⟩
  else
    let v := validate q
    if v.is_valid then ⟨"execute", none⟩
    else ⟨"sql_corrector", some (joinSep "; " v.errors)⟩

/-- State update of the executor node.  `sql_error := some none` models the
explicit `"sql_error": None` write on success; `result` is the data
payload embedded in the success message. -/
structure ExecutorResult where
  next_step : String
  sql_error : Option (Option String)
  sql_retry_count : Option Nat
  result : Option QueryResult
deriving Repr, DecidableEq

/-- `AgentService.sql_executor_node`.  `engine` is the external
`duckdb_service.execute_query` call (`Except.error` models a raised
exception); the guard returns before invoking it. -/
def sql_executor_node (engine : String → Except String QueryResult)
    (sql_query : Option String) : ExecutorResult :=
  match sql_query with
  | none => ⟨"sql_corrector", some (some "No valid SQL query"), none, none⟩
  | some q =>
    if q == "" || containsSub "ERROR" q then
      ⟨"sql_corrector", some (some "No valid SQL query"), none, none⟩
    else
      match engine q with
      | .ok r => ⟨"data_analyst", some none, some 0, some r⟩
      | .error e => ⟨"sql_corrector", some (some e), none, none⟩

/-! ### `DuckDBService` (duckdb_service.py)

The DuckDB connection is modelled by an explicit state: the catalogue of
tables (each with its columns and rows — the contents of a loaded CSV are
external input) together with the module's schema cache
(`_schema_cache["all_schemas"]` and `_schema_cache_time`).  Time is an
explicit `Nat` parameter standing for `time.time()`. -/

/-- One DuckDB table: name, `DESCRIBE` output (column, declared type), rows. -/
structure TableDef where
  name : String
  cols : List (String × String)
  rows : List (List String)
deriving Repr, DecidableEq

/-- The mutable state of `DuckDBService`. -/
structure DuckDBState where
  tables : List TableDef
  schema_cache : Option String
  schema_cache_time : Nat
deriving Repr, DecidableEq

/-- `SCHEMA_CACHE_TTL` (seconds). -/
def SCHEMA_CACHE_TTL : Nat := 60

/-- `DEFAULT_LIMIT`: result cap applied by `execute_query`. -/
def DEFAULT_LIMIT : Nat := 1000

/-- The SQL keyword deny-list of `validate_table_name`. -/
def sqlKeywords : List String :=
  ["SELECT", "INSERT", "UPDATE", "DELETE", "DROP", "CREATE",
   "ALTER", "TRUNCATE", "TABLE", "DATABASE", "UNION", "JOIN"]

/-- The language of `[a-zA-Z_][a-zA-Z0-9_]*` (full match, ASCII). -/
def tableNamePatCore : List Char → Bool
  | [] => false
  | c :: cs => (c.isAlpha || c == '_') && cs.all (fun d => d.isAlphanum || d == '_')

/-- `TABLE_NAME_PATTERN.match(s)` for `^[a-zA-Z_][a-zA-Z0-9_]*$`:
Python's `$` (without `re.MULTILINE`) matches at the end of the string
*or just before a single trailing newline*, so a name consisting of the
core pattern followed by one `'\n'` is also accepted. -/
def tableNamePat (s : String) : Bool :=
  tableNamePatCore s.data ||
    (match s.data.getLast? with
     | some c => c == '\n' && tableNamePatCore s.data.dropLast
     | none => false)

/-- `DuckDBService.validate_table_name`: `Except.error` models the raised
`ValueError`. -/
def validate_table_name (t : String) : Except String Unit :=
  if t == "" then
    .error "Table name cannot be empty"
  else if !tableNamePat t then
    .error ("Invalid table name: " ++ t
      ++ ". Table names must start with a letter or underscore and contain only alphanumeric characters and underscores.")
  else if sqlKeywords.contains (pyUpper t) then
    .error ("Table name cannot be a SQL keyword: " ++ t)
  else
    .ok ()

/-- The LIMIT-wrapping step of `execute_query`: a query whose stripped,
upper-cased text starts with `SELECT` and does not contain the substring
`LIMIT` is wrapped as `SELECT * FROM (query) AS subq LIMIT limit`. -/
def addDefaultLimit (query : String) (limit : Nat) : String :=
  let query_upper := pyUpper (pyStrip query)
  if pyStartsWith "SELECT" query_upper && !containsSub "LIMIT" query_upper then
    "SELECT * FROM (" ++ query ++ ") AS subq LIMIT " ++ toString limit
  else query

/-- `DuckDBService.execute_query`: apply the LIMIT wrapping (with
`DEFAULT_LIMIT` when no explicit limit argument is passed), then run the
statement on the connection (`engine`, external).  Per-row JSON
serialisation preserves the row count and is absorbed into `engine`. -/
def execute_query (engine : String → QueryResult) (query : String)
    (limit : Option Nat) : QueryResult :=
  engine (addDefaultLimit query (limit.getD DEFAULT_LIMIT))

/-- `DuckDBService._invalidate_schema_cache`. -/
def invalidate_schema_cache (st : DuckDBState) : DuckDBState :=
  { st with schema_cache := none, schema_cache_time := 0 }

/-- `DuckDBService.load_csv`: validate the table name, run
`CREATE OR REPLACE TABLE "<name>" AS SELECT * FROM read_csv_auto(...)`
(the CSV contents are the external input `csv`), then invalidate the
schema cache. -/
def load_csv (st : DuckDBState) (file_path : String) (csv : TableDef) :
    Except String (DuckDBState × String) :=
  match validate_table_name csv.name with
  | .error e => .error e
  | .ok _ =>
    let created := { st with
      tables := st.tables.filter (fun t => !(t.name == csv.name)) ++ [csv] }
    .ok (invalidate_schema_cache created,
      "Successfully loaded " ++ file_path ++ " into table " ++ csv.name)

/-- `DuckDBService.delete_table`: validate the table name and run
`DROP TABLE IF EXISTS "<name>"`.  Note: unlike `load_csv`, the source does
*not* invalidate the schema cache here. -/
def delete_table (st : DuckDBState) (tname : String) :
    Except String (DuckDBState × String) :=
  match validate_table_name tname with
  | .error e => .error e
  | .ok _ =>
    .ok ({ st with tables := st.tables.filter (fun t => !(t.name == tname)) },
      "Successfully deleted table " ++ tname)

/-- `DuckDBService.get_schema`: validate, then `DESCRIBE "<name>"` (which
raises on a missing table). -/
def get_schema (st : DuckDBState) (tname : String) :
    Except String (List (String × String)) :=
  match validate_table_name tname with
  | .error e => .error e
  | .ok _ =>
    match st.tables.find? (fun t => t.name == tname) with
    | some t => .ok t.cols
    | none => .error ("Table with name " ++ tname ++ " does not exist")

/-- `DuckDBService.get_table_content`: validate, then
`SELECT * FROM "<name>" LIMIT <limit>`. -/
def get_table_content (st : DuckDBState) (tname : String) (limit : Nat) :
    Except String QueryResult :=
  match validate_table_name tname with
  | .error e => .error e
  | .ok _ =>
    match st.tables.find? (fun t => t.name == tname) with
    | some t => .ok ⟨t.cols.map Prod.fst, t.rows.take limit⟩
    | none => .error ("Table with name " ++ tname ++ " does not exist")

/-- `DuckDBService.get_row_count`: validate, then
`SELECT COUNT(*) FROM "<name>"`. -/
def get_row_count (st : DuckDBState) (tname : String) : Except String Nat :=
  match validate_table_name tname with
  | .error e => .error e
  | .ok _ =>
    match st.tables.find? (fun t => t.name == tname) with
    | some t => .ok t.rows.length
    | none => .error ("Table with name " ++ tname ++ " does not exist")

/-- The schema string built by `get_all_schemas` from the live catalogue:
one `Table: ...\nColumns:\n  - col (type)\n` block per table, blocks
joined with `"\n"`. -/
def buildSchemas (tables : List TableDef) : String :=
  joinSep "\n" (tables.map (fun t =>
    "Table: " ++ t.name ++ "\nColumns:\n"
      ++ joinSep "" (t.cols.map (fun c => "  - " ++ c.1 ++ " (" ++ c.2 ++ ")\n"))))

/-- `DuckDBService.get_all_schemas` at wall-clock time `now`: return the
cached entry when `use_cache` is set, the cache holds the entry and
`now - schema_cache_time < SCHEMA_CACHE_TTL`; otherwise rebuild from the
store and refresh the cache.  The third component records whether the
store was re-queried. -/
def get_all_schemas (st : DuckDBState) (now : Nat) (use_cache : Bool) :
    String × DuckDBState × Bool :=
  match (if use_cache && now - st.schema_cache_time < SCHEMA_CACHE_TTL
         then st.schema_cache else none) with
  | some s => (s, st, false)
  | none =>
    let r := buildSchemas st.tables
    (r, { st with schema_cache := some r, schema_cache_time := now }, true)

/-! ### `SchemaToolsService` (schema_tools.py) -/

/-- One entry of the ranked list returned by
`vector_store.semantic_column_search` (the similarity score is an IEEE
float in the source; it is only passed through, so it is carried as an
abstract rational here). -/
structure ColCandidate where
  table : String
  column : String
  data_type : String
  similarity : Rat
deriving Repr, DecidableEq

/-- The `ColumnMapping` dataclass. -/
structure ColumnMapping where
  user_term : String
  table : String
  column : String
  data_type : String
  confidence : Rat
  needs_cast : Bool
  cast_expression : String
deriving Repr, DecidableEq

/-- The `for r in results` tie-break loop of `_map_concept_to_column` for
`concept_type == "amount"`: a column containing `montant_ligne` without
`eur` wins immediately (`break`); otherwise the last column containing
`montant` without `eur` becomes `best`; otherwise `best` is unchanged. -/
def amountBest : List ColCandidate → ColCandidate → ColCandidate
  | [], best => best
  | r :: rs, best =>
    let c := pyLower r.column
    if containsSub "montant_ligne" c && !containsSub "eur" c then r
    else if containsSub "montant" c && !containsSub "eur" c then amountBest rs r
    else amountBest rs best

/-- The cast expression `CAST(REPLACE(<column>, ',', '.') AS DOUBLE)`
produced for amount columns (French locale normalisation). -/
def amountCast (column : String) : String :=
  "CAST(REPLACE(" ++ column ++ ", " ++ sq ++ "," ++ sq ++ ", "
    ++ sq ++ "." ++ sq ++ ") AS DOUBLE)"

/-- The selection-and-cast part of
`SchemaToolsService._map_concept_to_column`, as a function of the ranked
candidate list returned by the semantic index (the preceding context
detection and search-query table only determine which list comes back and
are external to this step).  Returns `None` when the list is empty. -/
def map_concept_to_column (concept_type : String) (results : List ColCandidate) :
    Option ColumnMapping :=
  match results with
  | [] => none
  | r0 :: _ =>
    let best := if concept_type == "amount" then amountBest results r0 else r0
    let data_type := pyUpper best.data_type
    let column := best.column
    if concept_type == "amount" then
      some ⟨concept_type, best.table, column, data_type, best.similarity,
            true, amountCast column⟩
    else if concept_type == "year" then
      if containsSub "DATE" data_type || containsSub "TIMESTAMP" data_type then
        some ⟨concept_type, best.table, column, data_type, best.similarity,
              true, "YEAR(" ++ column ++ ")"⟩
      else
        some ⟨concept_type, best.table, column, data_type, best.similarity,
              false, best.column⟩
    else
      some ⟨concept_type, best.table, column, data_type, best.similarity,
            false, best.column⟩

/-- `SchemaToolsService._find_similar_name`: exact case-insensitive match
first, else first candidate related by substring containment. -/
def find_similar_name (name : String) (candidates : List String) : Option String :=
  let nl := pyLower name
  match candidates.find? (fun c => pyLower c == nl) with
  | some c => some c
  | none =>
    candidates.find? (fun c => containsSub nl (pyLower c) || containsSub (pyLower c) nl)

/-- Greedy capture of `["\w]+` (table identifier, possibly quoted). -/
def refCapture (s : List Char) : List Char :=
  s.takeWhile (fun c => isWordChar c || c == '"')

/-- Try to match `<kw>\s+(["\w]+)` at the head of `s` (`\b` before `kw` is
checked by the caller); returns the capture and the suffix after it. -/
def tryKwCapture (kw : List Char) (s : List Char) : Option (List Char × List Char) :=
  if icaseStarts kw s then
    let afterKw := s.drop kw.length
    let ws := afterKw.takeWhile Char.isWhitespace
    let afterW := afterKw.dropWhile Char.isWhitespace
    let cap := refCapture afterW
    if !ws.isEmpty && !cap.isEmpty then some (cap, afterW.drop cap.length)
    else none
  else none

/-- Left-to-right non-overlapping scan for
`\bFROM\s+(["\w]+)|\bJOIN\s+(["\w]+)` (IGNORECASE), collecting the
captures (`re.findall`).  `fuel` bounds the recursion; every step consumes
at least one character, so `fuel = length + 1` computes the full scan. -/
def refScan : Nat → Bool → List Char → List (List Char)
  | 0, _, _ => []
  | _ + 1, _, [] => []
  | fuel + 1, prevWord, c :: cs =>
    if prevWord then refScan fuel (isWordChar c) cs
    else
      match tryKwCapture "from".data (c :: cs) with
      | some (cap, rest) => cap :: refScan fuel (isWordChar (cap.getLastD ' ')) rest
      | none =>
        match tryKwCapture "join".data (c :: cs) with
        | some (cap, rest) => cap :: refScan fuel (isWordChar (cap.getLastD ' ')) rest
        | none => refScan fuel (isWordChar c) cs

/-- Referenced-table extraction of `validate_sql`: run the scan and strip
surrounding double quotes (`t.strip('"')`). -/
def extractRefTables (sql : String) : List String :=
  (refScan (sql.length + 1) false sql.data).map (fun cs => String.mk (stripQuotes cs))

/-- `SchemaToolsService.validate_sql`.  `schema` is the cached
`get_full_schema()` result; `explainErr` is the outcome of the
`EXPLAIN <sql>` call on the store (`none` = no exception);
`explainSugg` is the suggestion list produced from a raised error message
by the bad-identifier regex plus semantic search (both external). -/
def validate_sql (schema : List (String × List (String × String)))
    (explainErr : Option String) (explainSugg : List String)
    (sql : String) : SQLValidationResult :=
  let all_tables := schema.map Prod.fst
  let referenced := extractRefTables sql
  let tableErrs := referenced.filterMap (fun t =>
    if all_tables.contains t then none
    else some ("Table " ++ sq ++ t ++ sq ++ " does not exist"))
  let tableSuggs := referenced.filterMap (fun t =>
    if all_tables.contains t then none
    else (find_similar_name t all_tables).map (fun s =>
      "Did you mean " ++ sq ++ s ++ sq ++ "?"))
  let explainOk := explainErr.isNone
  let errors := tableErrs ++
    (match explainErr with
     | none => []
     | some msg => ["Syntax error: " ++ msg])
  let suggestions := tableSuggs ++
    (match explainErr with
     | none => []
     | some _ => explainSugg)
  ⟨explainOk && errors.isEmpty, errors, suggestions, none⟩

/-- The `Relationship` records of `relationship_service` (the optional
description plays no role in join finding). -/
structure Rel where
  table_source : String
  column_source : String
  table_target : String
  column_target : String
deriving Repr, DecidableEq

/-- The reversed-direction entry inserted for each relationship. -/
def relSwap (r : Rel) : Rel :=
  ⟨r.table_target, r.column_target, r.table_source, r.column_source⟩

/-- The `rel_map` dict of `get_required_joins`: both directions of every
relationship, later assignments shadowing earlier ones (modelled by
prepending and first-match lookup; within one relationship the reversed
key is assigned last). -/
def buildRelMap (rels : List Rel) : List ((String × String) × Rel) :=
  rels.foldl (fun m r =>
    ((r.table_target, r.table_source), relSwap r)
      :: ((r.table_source, r.table_target), r) :: m) []

/-- Scan of the joined set for a direct edge to `target` (`for joined in
joined_tables` with the `break` on first hit; Python set iteration order
is modelled as insertion order). -/
def findEdge (m : List ((String × String) × Rel)) (joined : List String)
    (target : String) : Option Rel :=
  match joined with
  | [] => none
  | j :: js =>
    match m.lookup (j, target) with
    | some r => some r
    | none => findEdge m js target

/-- The JOIN clause text
`JOIN <target> ON <src>.<col> = <tgt>.<col>`. -/
def joinClause (target : String) (r : Rel) : String :=
  "JOIN " ++ target ++ " ON " ++ r.table_source ++ "." ++ r.column_source
    ++ " = " ++ r.table_target ++ "." ++ r.column_target

/-- `SchemaToolsService.get_required_joins`: greedy expansion from the
first table; a table with no direct edge to the joined set is skipped. -/
def get_required_joins (rels : List Rel) (tables : List String) : List String :=
  match tables with
  | [] => []
  | [_] => []
  | t0 :: restTables =>
    let m := buildRelMap rels
    (restTables.foldl (fun acc target =>
      if acc.2.contains target then acc
      else
        match findEdge m acc.2 target with
        | some r => (acc.1 ++ [joinClause target r], acc.2 ++ [target])
        | none => acc)
      (([] : List String), [t0])).1

/-! ### Auxiliary definitions used by the statements below -/

/-- The maximal word-character runs of a string, via a structural
accumulator scan (`acc` holds the current run, reversed). -/
def wordRunsAcc (acc : List Char) : List Char → List (List Char)
  | [] => if acc.isEmpty then [] else [acc.reverse]
  | c :: cs =>
    if isWordChar c then wordRunsAcc (c :: acc) cs
    else if acc.isEmpty then wordRunsAcc [] cs
    else acc.reverse :: wordRunsAcc [] cs

/-- The maximal word-character runs of a string. -/
def wordRuns (s : List Char) : List (List Char) := wordRunsAcc [] s

/-- Does some maximal word run of `s` equal `w` up to case?  This is the
token-level reading of "the statement contains the keyword `w`" (e.g. an
explicit `LIMIT` clause), as opposed to the raw substring test the
executor performs. -/
def hasWordIcase (w : List Char) (s : List Char) : Bool :=
  (wordRuns s).any (fun r => icaseEq r w)

/-- `Except` outcome check: did the call raise? -/
def raisesError {α : Type} : Except String α → Bool
  | .error _ => true
  | .ok _ => false

/-- A concrete store connection holding a 1001-row table `t` with a column
named `limite`, used to exhibit the unwrapped-query behaviour of
`execute_query`. -/
def bigEngine : String → QueryResult := fun s =>
  if s = "SELECT limite FROM t" then ⟨["limite"], List.replicate 1001 ["x"]⟩
  else ⟨[], []⟩

/-- Concrete one-table store used in the schema-cache scenario. -/
def cacheDemoState : DuckDBState := ⟨[⟨"T", [("c", "VARCHAR")], []⟩], none, 0⟩

/-- The store after a first `get_all_schemas` read at `t = 1000` (the read
populates the cache). -/
def cacheDemoAfterRead : DuckDBState := (get_all_schemas cacheDemoState 1000 true).2.1

/-- The store after `delete_table "T"` following that read. -/
def cacheDemoAfterDelete : DuckDBState :=
  match delete_table cacheDemoAfterRead "T" with
  | .ok (st, _) => st
  | .error _ => cacheDemoAfterRead

/-! ### Decidable side conditions on the `_fix_table_names` patterns

The idempotence proof for `fix_table_names` rests on a handful of
properties of the concrete pattern table, all checked by computation:
no literal or replacement can continue a `\s+AS` / `\s+FROM` lookahead
window, replacements do not start with whitespace, a replaced run can only
reproduce the replacement itself, and no replacement contains a word run
that any pattern would rewrite to something else. -/

/-- `kw` cannot be (case-insensitively) continued at the start of `r ++ z`
for any `z`: the overlap of `r` and `kw` already mismatches. -/
def noKwPre (kw r : List Char) : Bool :=
  !(icaseEq (r.take kw.length) (kw.take r.length))

/-- The replacement is nonempty and does not start with whitespace. -/
def replHeadSolid (p : Pat) : Bool :=
  match p.repl with
  | [] => false
  | c :: _ => !c.isWhitespace

/-- Either the replacement has the literal's length (then a replaced run
equals the replacement), or replacement and literal mismatch on their
overlap (then a replaced run can never reproduce a match context). -/
def selfAlign (p : Pat) : Bool :=
  (p.repl.length == p.lit.length)
    || !(icaseEq (p.repl.take p.lit.length) (p.lit.take p.repl.length))

/-- Per-pattern side conditions. -/
def patOk (p : Pat) : Bool :=
  noKwPre "as".data p.lit && noKwPre "as".data p.repl
    && noKwPre "from".data p.lit && noKwPre "from".data p.repl
    && replHeadSolid p && selfAlign p

/-- Every word run of `r` that matches `p.lit` is literally `p.repl`
(so a rescan of `r` by `p` changes nothing). -/
def wordRunsOk (p : Pat) (r : List Char) : Bool :=
  (wordRuns r).all (fun w => !icaseEq w p.lit || w == p.repl)

/-- All side conditions over a pattern table, including the pairwise
replacement checks. -/
def patsOk (ps : List Pat) : Bool :=
  ps.all (fun p => patOk p && ps.all (fun q => wordRunsOk p q.repl))

/-- Is the head of the list a non-word character (or the list empty)?
Suffixes produced by `reSub` after a word run always satisfy this. -/
def headNW : List Char → Bool
  | [] => true
  | c :: _ => !isWordChar c

/-- Lookahead keywords are word characters with word lower-casings. -/
def kwWordLower (kw : List Char) : Bool :=
  kw.all (fun k => isWordChar (Char.toLower k))

/-! ## Theorems -/

/-- C6: the `SQLValidationResult` returned by `validate_sql` is never
partially valid: `is_valid` is true exactly when the list of blocking
errors collected across the schema-membership phase and the store
`EXPLAIN` phase is empty; any blocking error in either phase forces
`is_valid = false`. -/
theorem C6_never_partially_valid
    (schema : List (String × List (String × String)))
    (explainErr : Option String) (explainSugg : List String) (sql : String) :
    (validate_sql schema explainErr explainSugg sql).is_valid = true
      ↔ (validate_sql schema explainErr explainSugg sql).errors = [] := by
  cases explainErr <;>
    simp [validate_sql, List.isEmpty_iff]

/-- C9: a turn state whose `sql_query` is empty or contains the substring
`"ERROR"` is routed to the corrector by both the validator node (without
invoking schema validation) and the executor node (without executing
anything): the two nodes' outputs are independent of the validation and
execution oracles, and in particular the planner's sentinel invalid
statement is itself caught by this guard. -/
theorem C9_error_guard :
    (∀ (s : String) (v₁ v₂ : String → SQLValidationResult),
      s = "" ∨ containsSub "ERROR" s = true →
      sql_validator_node v₁ (some s) = ⟨"sql_corrector", none⟩
        ∧ sql_validator_node v₁ (some s) = sql_validator_node v₂ (some s)) ∧
    (∀ (s : String) (e₁ e₂ : String → Except String QueryResult),
      s = "" ∨ containsSub "ERROR" s = true →
      sql_executor_node e₁ (some s)
          = ⟨"sql_corrector", some (some "No valid SQL query"), none, none⟩
        ∧ sql_executor_node e₁ (some s) = sql_executor_node e₂ (some s)) ∧
    containsSub "ERROR" sentinelSQL = true := by
  refine ⟨?_, ?_, by decide⟩
  · rintro s v₁ v₂ (rfl | h)
    · exact ⟨rfl, rfl⟩
    · constructor <;> simp [sql_validator_node, h]
  · rintro s e₁ e₂ (rfl | h)
    · exact ⟨rfl, rfl⟩
    · constructor <;> simp [sql_executor_node, h]

/-- Witness for C9 at the sentinel statement and concrete oracles. -/
theorem C9_error_guard_witness :
    sql_validator_node (fun _ => ⟨true, [], [], none⟩) (some sentinelSQL)
        = ⟨"sql_corrector", none⟩
      ∧ sql_executor_node (fun _ => .ok ⟨[], []⟩) (some sentinelSQL)
        = ⟨"sql_corrector", some (some "No valid SQL query"), none, none⟩ :=
  ⟨(C9_error_guard.1 sentinelSQL _ (fun _ => ⟨false, [], [], none⟩)
      (Or.inr (by decide))).1,
   (C9_error_guard.2.1 sentinelSQL _ (fun _ => .error "")
      (Or.inr (by decide))).1⟩

/-- One node execution keeps the retry counter within the bound. -/
theorem retryStep_le_three (n : Nat) (e : TurnEvent) (h : n ≤ 3) :
    retryStep n e ≤ 3 := by
  cases e with
  | corrector q err co =>
    simp only [retryStep, sql_corrector_node, max_retries]
    split_ifs <;> simp_all <;> omega
  | executorSuccess => simp [retryStep]
  | other => simpa [retryStep] using h

/-- The bound is preserved along any event sequence. -/
theorem foldl_retryStep_le (evs : List TurnEvent) :
    ∀ n, n ≤ 3 → evs.foldl retryStep n ≤ 3 := by
  induction evs with
  | nil => intro n h; simpa using h
  | cons e evs ih =>
    intro n h
    exact ih _ (retryStep_le_three n e h)

/-- C1: over every sequence of validator/executor/corrector outcomes the
correction loop is bounded: starting from a fresh turn, `sql_retry_count`
never exceeds the configured maximum `max_retries = 3`, and a corrector
invocation that observes the maximum routes the turn to the data-analyst
terminal step (never back to the validator). -/
theorem C1_retry_bound :
    (∀ evs : List TurnEvent, runRetries evs ≤ 3) ∧
    (∀ (st : CorrectorState) (co : String × List String),
      max_retries ≤ st.sql_retry_count →
      (sql_corrector_node st co).next_step = "data_analyst"
        ∧ (sql_corrector_node st co).next_step ≠ "sql_validator"
        ∧ (sql_corrector_node st co).sql_retry_count = 0) := by
  constructor
  · intro evs
    exact foldl_retryStep_le evs 0 (by omega)
  · intro st co h
    unfold sql_corrector_node
    rw [if_pos h]
    exact ⟨rfl, by decide, rfl⟩

/-- Witness for C1: a concrete adversarial run (a validator that always
fails and a corrector that always "fixes") stays within the bound, and a
corrector call at the maximum goes to the analyst. -/
theorem C1_retry_bound_witness :
    runRetries
      [.corrector "q" (some "err") ("q2", ["fix"]),
       .corrector "q2" (some "err") ("q3", ["fix"]),
       .corrector "q3" (some "err") ("q4", ["fix"]),
       .corrector "q4" (some "err") ("q5", ["fix"]),
       .corrector "q5" (some "err") ("q6", ["fix"])] ≤ 3
    ∧ (sql_corrector_node ⟨"q", some "err", 3⟩ ("q2", ["fix"])).next_step
        = "data_analyst" :=
  ⟨C1_retry_bound.1 _,
   (C1_retry_bound.2 ⟨"q", some "err", 3⟩ ("q2", ["fix"]) (by decide)).1⟩

/-- C3 (counterexample): the claim "every SELECT statement lacking an
explicit row limit is capped at 1000 rows" fails on the code: the check is
a raw substring test, so `SELECT limite FROM t` — a SELECT with no `LIMIT`
keyword at all — is passed to the store unwrapped and returns 1001 rows
from a 1001-row table. -/
theorem C3_limit_counterexample :
    hasWordIcase "limit".data "SELECT limite FROM t".data = false
      ∧ pyStartsWith "SELECT" (pyUpper (pyStrip "SELECT limite FROM t")) = true
      ∧ addDefaultLimit "SELECT limite FROM t" DEFAULT_LIMIT
          = "SELECT limite FROM t"
      ∧ (execute_query bigEngine "SELECT limite FROM t" none).data.length
          = 1001 := by
  refine ⟨by decide, by decide, by decide, ?_⟩
  show (bigEngine (addDefaultLimit "SELECT limite FROM t" 1000)).data.length = 1001
  have h : addDefaultLimit "SELECT limite FROM t" 1000
      = "SELECT limite FROM t" := by decide
  rw [h]
  simp [bigEngine]

/-- C3 (amended): `execute_query` wraps a statement exactly when its
stripped upper-cased text starts with `SELECT` and does not contain the
substring `"LIMIT"` anywhere (not merely as a keyword); for those
statements, any store that honours the wrapped `LIMIT 1000` returns at
most 1000 rows. -/
theorem C3_default_limit_cap (engine : String → QueryResult)
    (hE : ∀ q : String,
      (engine ("SELECT * FROM (" ++ q ++ ") AS subq LIMIT "
        ++ toString DEFAULT_LIMIT)).data.length ≤ DEFAULT_LIMIT)
    (query : String)
    (hsel : pyStartsWith "SELECT" (pyUpper (pyStrip query)) = true)
    (hnl : containsSub "LIMIT" (pyUpper (pyStrip query)) = false) :
    (execute_query engine query none).data.length ≤ 1000 := by
  show (engine (addDefaultLimit query 1000)).data.length ≤ 1000
  unfold addDefaultLimit
  simp only [hsel, hnl, Bool.not_false, Bool.and_self, if_true]
  exact hE query

/-- Witness for the amended C3 at a concrete engine and query. -/
theorem C3_default_limit_cap_witness :
    (execute_query (fun _ => ⟨[], []⟩) "SELECT a FROM t" none).data.length ≤ 1000 :=
  C3_default_limit_cap (fun _ => ⟨[], []⟩)
    (fun _ => by simp)
    "SELECT a FROM t" (by decide) (by decide)

/-- C4: the join-path finder returns `[]` for at most one table; on
`[A, B, C]` with edges `A–B` and `B–C` it returns the clause joining `B`
to `A` followed by the clause joining `C` to `B`; and on `[A, C]` with
only the edge `B–C` the unreachable table `C` is silently dropped
(total function, no exception). -/
theorem C4_join_path_finder :
    (∀ (rels : List Rel) (tables : List String),
      tables.length ≤ 1 → get_required_joins rels tables = []) ∧
    get_required_joins
        [⟨"A", "a1", "B", "b1"⟩, ⟨"B", "b2", "C", "c2"⟩] ["A", "B", "C"]
      = ["JOIN B ON A.a1 = B.b1", "JOIN C ON B.b2 = C.c2"] ∧
    get_required_joins [⟨"B", "b2", "C", "c2"⟩] ["A", "C"] = [] := by
  refine ⟨?_, by decide, by decide⟩
  intro rels tables h
  match tables with
  | [] => rfl
  | [_] => rfl
  | _ :: _ :: _ => simp [List.length] at h

/-- Witness for C4 on concrete inputs of each shape. -/
theorem C4_join_path_finder_witness :
    get_required_joins [⟨"A", "a1", "B", "b1"⟩] ["X"] = [] :=
  C4_join_path_finder.1 [⟨"A", "a1", "B", "b1"⟩] ["X"] (by decide)

/-- C2: after `delete_table`, the schema cache is *not* invalidated (unlike
`load_csv`, the source never calls `_invalidate_schema_cache` there), so a
`get_all_schemas` read within the 60 s TTL returns the stale cached text
that still lists the deleted table, without re-querying the store —
whereas a rebuild (as forced by an explicit invalidation) would return the
post-delete schema. -/
theorem C2_delete_leaves_stale_cache :
    cacheDemoAfterDelete.tables = []
      ∧ (get_all_schemas cacheDemoAfterDelete 1030 true).1
          = "Table: T\nColumns:\n  - c (VARCHAR)\n"
      ∧ (get_all_schemas cacheDemoAfterDelete 1030 true).2.2 = false
      ∧ buildSchemas cacheDemoAfterDelete.tables = ""
      ∧ (get_all_schemas (invalidate_schema_cache cacheDemoAfterDelete) 1030 true).1 = ""
      ∧ (match load_csv cacheDemoAfterRead "f.csv" ⟨"U", [("d", "INT")], []⟩ with
         | .ok (st, _) => st.schema_cache
         | .error _ => none) = none := by
  decide

/-- C8 (counterexample): the name `"abc\n"` lies outside the claimed
allow-list `[a-zA-Z_][a-zA-Z0-9_]*`, yet `validate_table_name` accepts it
— Python's `$` in `TABLE_NAME_PATTERN` also matches just before a single
trailing newline — and table-name operations proceed against the store. -/
theorem C8_allowlist_counterexample :
    tableNamePatCore "abc\n".data = false
      ∧ (validate_table_name "abc\n").toOption = some ()
      ∧ (get_row_count ⟨[⟨"abc\n", [], []⟩], none, 0⟩ "abc\n").toOption = some 0 := by
  decide

/-- C8 (amended): every table-name operation of the store service
(`load_csv`, `delete_table`, `get_schema`, `get_table_content`,
`get_row_count`) validates the name first and raises `ValueError` —
performing no store operation — for every name outside the allow-list as
implemented: the identifier pattern with Python `$` semantics (which also
accepts one trailing newline), excluding the empty name and SQL
keywords. -/
theorem C8_invalid_name_raises (name : String)
    (h : (name == "" || !tableNamePat name
          || sqlKeywords.contains (pyUpper name)) = true) :
    raisesError (validate_table_name name) = true
      ∧ ∀ (st : DuckDBState) (path : String) (cols : List (String × String))
          (rows : List (List String)) (lim : Nat),
          raisesError (load_csv st path ⟨name, cols, rows⟩) = true
            ∧ raisesError (delete_table st name) = true
            ∧ raisesError (get_schema st name) = true
            ∧ raisesError (get_table_content st name lim) = true
            ∧ raisesError (get_row_count st name) = true := by
  have hv : ∃ e, validate_table_name name = Except.error e := by
    unfold validate_table_name
    split_ifs with h1 h2 h3
    · exact ⟨_, rfl⟩
    · exact ⟨_, rfl⟩
    · exact ⟨_, rfl⟩
    · exfalso
      simp only [Bool.or_eq_true, Bool.not_eq_true'] at h
      rcases h with (h | h) | h
      · exact h1 h
      · rw [h] at h2; exact h2 rfl
      · exact h3 h
  obtain ⟨e, he⟩ := hv
  refine ⟨by simp [raisesError, he], ?_⟩
  intro st path cols rows lim
  refine ⟨?_, ?_, ?_, ?_, ?_⟩ <;>
    simp [load_csv, delete_table, get_schema, get_table_content,
      get_row_count, he, raisesError]

/-- Witness for the amended C8 at a concrete invalid name and store. -/
theorem C8_invalid_name_raises_witness :
    raisesError (validate_table_name "bad name!") = true
      ∧ raisesError (delete_table ⟨[], none, 0⟩ "bad name!") = true :=
  ⟨(C8_invalid_name_raises "bad name!" (by decide)).1,
   ((C8_invalid_name_raises "bad name!" (by decide)).2 ⟨[], none, 0⟩ "" [] [] 0).2.1⟩

/-- The tie-break loop of the "amount" branch never settles on a column
whose lower-cased name contains `"eur"` as long as some candidate's
lower-cased name contains `"montant"` but not `"eur"` (or the running
`best` already satisfies that). -/
theorem amountBest_no_eur (l : List ColCandidate) (best : ColCandidate)
    (h : (∃ r ∈ l, containsSub "montant" (pyLower r.column) = true
            ∧ containsSub "eur" (pyLower r.column) = false)
        ∨ (containsSub "montant" (pyLower best.column) = true
            ∧ containsSub "eur" (pyLower best.column) = false)) :
    containsSub "eur" (pyLower (amountBest l best).column) = false := by
  induction l generalizing best with
  | nil =>
    rcases h with ⟨r, hr, _⟩ | ⟨_, he⟩
    · simp at hr
    · simpa [amountBest] using he
  | cons r rs ih =>
    simp only [amountBest]
    split_ifs with h1 h2
    · simp only [Bool.and_eq_true, Bool.not_eq_true'] at h1
      exact h1.2
    · apply ih
      simp only [Bool.and_eq_true, Bool.not_eq_true'] at h2
      exact Or.inr h2
    · apply ih
      rcases h with ⟨r', hr', hm', he'⟩ | hb
      · rcases List.mem_cons.mp hr' with rfl | hr'
        · exact absurd (by simp [hm', he']) h2
        · exact Or.inl ⟨r', hr', hm', he'⟩
      · exact Or.inr hb

/-- C5 (amended): when the semantic-index candidate list contains at least
one column whose lower-cased name contains `"montant"` and not `"eur"`
(rather than merely any column without `"eur"`), the column selected for
an "amount" concept never contains the unreliable `"eur"` marker. -/
theorem C5_amount_avoids_eur (results : List ColCandidate) (r : ColCandidate)
    (hr : r ∈ results)
    (hm : containsSub "montant" (pyLower r.column) = true)
    (he : containsSub "eur" (pyLower r.column) = false)
    (m : ColumnMapping)
    (hmap : map_concept_to_column "amount" results = some m) :
    containsSub "eur" (pyLower m.column) = false := by
  match results, hr with
  | r0 :: rs, hr =>
    simp only [map_concept_to_column, if_pos, Option.some.injEq] at hmap
    norm_num at hmap
    subst hmap
    exact amountBest_no_eur (r0 :: rs) r0 (Or.inl ⟨r, hr, hm, he⟩)

/-- Witness for the amended C5: with candidates `MONTANT_EUR` then
`MONTANT_LIGNE`, the selected column avoids the `eur` marker. -/
theorem C5_amount_avoids_eur_witness :
    containsSub "eur"
      (pyLower (ColumnMapping.column
        ⟨"amount", "T", "MONTANT_LIGNE", "VARCHAR", 1, true,
         amountCast "MONTANT_LIGNE"⟩)) = false :=
  C5_amount_avoids_eur
    [⟨"T", "MONTANT_EUR", "VARCHAR", 1⟩, ⟨"T", "MONTANT_LIGNE", "VARCHAR", 1⟩]
    ⟨"T", "MONTANT_LIGNE", "VARCHAR", 1⟩
    (by decide) (by decide) (by decide)
    ⟨"amount", "T", "MONTANT_LIGNE", "VARCHAR", 1, true, amountCast "MONTANT_LIGNE"⟩
    (by decide)

/-- C5 (counterexample): with candidates `MONTANT_EUR` then `PRIX`, a
non-`eur` alternative exists in the candidate set, yet the "amount"
selection keeps `MONTANT_EUR` (the tie-break only prefers columns
containing `montant`), so the claim as stated fails. -/
theorem C5_eur_selected_counterexample :
    (map_concept_to_column "amount"
        [⟨"T", "MONTANT_EUR", "VARCHAR", 1⟩, ⟨"T", "PRIX", "VARCHAR", 1⟩]).map
        ColumnMapping.column = some "MONTANT_EUR"
      ∧ containsSub "eur" (pyLower "MONTANT_EUR") = true
      ∧ containsSub "eur" (pyLower "PRIX") = false := by
  decide

/-- C7: raw generator output that contains a non-SQL indicator (Python /
pandas markers and the like), or that contains neither a code block nor a
`SELECT`/`WITH` token, is converted by `_extract_sql` into the sentinel
invalid statement — a total function returning an error-marked `SELECT`
that then flows into the validation/correction path. -/
theorem C7_generation_failure_sentinel (raw : String)
    (h : nonSqlIndicators.any
          (fun ind => containsSub ind (pyLower (pyStrip raw))) = true
        ∨ (codeBlockContent raw.data = none ∧ findSW false raw.data = none)) :
    extract_sql raw = sentinelSQL := by
  unfold extract_sql
  by_cases hic : nonSqlIndicators.any
      (fun ind => containsSub ind (pyLower (pyStrip raw))) = true
  · simp [hic]
  · rcases h with h | ⟨h1, h2⟩
    · exact absurd h hic
    · simp [hic, h1, h2]

/-- Witness for C7: a pandas-flavoured output and a plain French sentence
both collapse to the sentinel. -/
theorem C7_generation_failure_sentinel_witness :
    extract_sql "du code: import pandas as pd" = sentinelSQL
      ∧ extract_sql "Je ne peux pas" = sentinelSQL :=
  ⟨C7_generation_failure_sentinel _ (Or.inl (by decide)),
   C7_generation_failure_sentinel _ (Or.inr ⟨by decide, by decide⟩)⟩

/-! ### Toolkit for the `fix_table_names` idempotence proof -/

/-- Word characters are not whitespace. -/
theorem wordChar_not_ws (c : Char) (h : isWordChar c = true) :
    c.isWhitespace = false := by
  by_contra hw
  rw [Bool.not_eq_false] at hw
  simp only [Char.isWhitespace, Bool.or_eq_true, decide_eq_true_eq] at hw
  rcases hw with ((rfl | rfl) | rfl) | rfl <;> exact absurd h (by decide)

/-- `Char.toLower` only moves `A`–`Z`, hence fixes non-word characters. -/
theorem toLower_id_of_nonword (c : Char) (hc : isWordChar c = false) :
    Char.toLower c = c := by
  unfold Char.toLower
  simp only []
  split_ifs with h
  · exfalso
    have hw : isWordChar c = true := by
      simp only [isWordChar, Bool.or_eq_true, Bool.and_eq_true,
        decide_eq_true_eq]
      exact Or.inl (Or.inl (Or.inl ⟨h.1, h.2⟩))
    rw [hw] at hc
    exact Bool.noConfusion hc
  · rfl

/-- A word-lowering character can never case-fold to a non-word one. -/
theorem toLower_ne_of_nonword (k c : Char)
    (hk : isWordChar (Char.toLower k) = true) (hc : isWordChar c = false) :
    (Char.toLower k == Char.toLower c) = false := by
  rw [toLower_id_of_nonword c hc]
  by_contra h
  rw [Bool.not_eq_false, beq_iff_eq] at h
  rw [h, hc] at hk
  exact Bool.noConfusion hk

/-- `icaseEq` unfolded to equality of case-folded lists. -/
theorem icaseEq_iff (a b : List Char) :
    icaseEq a b = true ↔ a.map Char.toLower = b.map Char.toLower := by
  simp [icaseEq]

/-- Case-insensitively equal lists have the same length. -/
theorem icaseEq_length (a b : List Char) (h : icaseEq a b = true) :
    a.length = b.length := by
  rw [icaseEq_iff] at h
  simpa using congrArg List.length h

/-- `icaseEq` is preserved by `take`. -/
theorem icaseEq_take (a b : List Char) (n : Nat) (h : icaseEq a b = true) :
    icaseEq (a.take n) (b.take n) = true := by
  rw [icaseEq_iff] at h ⊢
  rw [List.map_take, List.map_take, h]

/-- `noKwPre` only depends on its second argument up to case. -/
theorem noKwPre_icase (kw a b : List Char) (h : icaseEq a b = true) :
    noKwPre kw a = noKwPre kw b := by
  have hlen : a.length = b.length := icaseEq_length a b h
  unfold noKwPre
  rw [hlen]
  congr 1
  rw [Bool.eq_iff_iff, icaseEq_iff, icaseEq_iff]
  have ht := icaseEq_take a b kw.length h
  rw [icaseEq_iff] at ht
  rw [ht]

/-- If nothing is taken from `ys`, `takeWhile` ignores the appended tail. -/
theorem takeWhile_append_nil {α : Type} (p : α → Bool) (xs ys : List α)
    (h : ys.takeWhile p = []) :
    (xs ++ ys).takeWhile p = xs.takeWhile p := by
  induction xs with
  | nil => simpa using h
  | cons x xs ih =>
    by_cases hx : p x = true
    · simp [List.takeWhile_cons, hx, ih]
    · simp [List.takeWhile_cons, Bool.eq_false_iff.mpr hx]

/-- If nothing is taken from `ys`, `dropWhile` keeps it whole. -/
theorem dropWhile_append_tail {α : Type} (p : α → Bool) (xs ys : List α)
    (h : ys.takeWhile p = []) :
    (xs ++ ys).dropWhile p = xs.dropWhile p ++ ys := by
  induction xs with
  | nil =>
    simp only [List.nil_append]
    cases ys with
    | nil => rfl
    | cons y ys =>
      rw [List.takeWhile_cons] at h
      rw [List.dropWhile_cons]
      split_ifs with hy
      · rw [hy] at h; exact absurd h (by simp)
      · rfl
  | cons x xs ih =>
    by_cases hx : p x = true
    · simp [List.dropWhile_cons, hx, ih]
    · simp [List.dropWhile_cons, Bool.eq_false_iff.mpr hx]

/-- A list with a non-word head yields no word prefix. -/
theorem takeWhile_eq_nil_of_headNW (t : List Char) (h : headNW t = true) :
    t.takeWhile isWordChar = [] := by
  cases t with
  | nil => rfl
  | cons c cs =>
    simp only [headNW, Bool.not_eq_true'] at h
    simp [List.takeWhile_cons, h]

/-- The word runs of a list with the run accumulator non-empty. -/
theorem wordRunsAcc_spec (cs : List Char) :
    ∀ acc : List Char, acc ≠ [] →
      wordRunsAcc acc cs
        = (acc.reverse ++ cs.takeWhile isWordChar)
            :: wordRuns (cs.dropWhile isWordChar) := by
  induction cs with
  | nil =>
    intro acc hacc
    simp [wordRunsAcc, List.isEmpty_iff, hacc, wordRuns]
  | cons d ds ih =>
    intro acc hacc
    by_cases hd : isWordChar d = true
    · rw [wordRunsAcc, if_pos hd, ih (d :: acc) (by simp)]
      simp [List.takeWhile_cons, List.dropWhile_cons, hd]
    · have hd' : isWordChar d = false := Bool.eq_false_iff.mpr hd
      rw [wordRunsAcc]
      rw [if_neg hd, if_neg (by simp [List.isEmpty_iff, hacc])]
      have : wordRuns (d :: ds) = wordRuns ds := by
        rw [wordRuns, wordRunsAcc, if_neg hd, if_pos (by simp)]
        rfl
      simp only [List.takeWhile_cons, List.dropWhile_cons, hd', if_false,
        Bool.false_eq_true, List.append_nil]
      rw [this]
      unfold wordRuns
      rfl

/-- Word runs of a list with non-word head. -/
theorem wordRuns_cons_nonword (c : Char) (cs : List Char)
    (h : isWordChar c = false) : wordRuns (c :: cs) = wordRuns cs := by
  rw [wordRuns, wordRunsAcc, if_neg (by simp [h]), if_pos (by simp)]
  rfl

/-- Word runs of a list with word head: the maximal head run, then the
runs of the remainder. -/
theorem wordRuns_cons_word (c : Char) (cs : List Char)
    (h : isWordChar c = true) :
    wordRuns (c :: cs)
      = (c :: cs.takeWhile isWordChar) :: wordRuns (cs.dropWhile isWordChar) := by
  rw [wordRuns, wordRunsAcc, if_pos h, wordRunsAcc_spec cs [c] (by simp)]
  rfl

/-- `icaseEq` on cons cells. -/
theorem icaseEq_cons (a k : Char) (x y : List Char) :
    icaseEq (a :: x) (k :: y) = ((a.toLower == k.toLower) && icaseEq x y) := rfl

/-- `==` on `Char` is symmetric. -/
theorem char_beq_comm (x y : Char) : (x == y) = (y == x) := by
  rw [Bool.eq_iff_iff, beq_iff_eq, beq_iff_eq]
  exact ⟨Eq.symm, Eq.symm⟩

/-- A keyword blocked on `r` cannot match at the head of `r ++ z`. -/
theorem blocked_append (kw : List Char) :
    ∀ r z : List Char, noKwPre kw r = true → icaseStarts kw (r ++ z) = false := by
  induction kw with
  | nil => intro r z hb; simp [noKwPre, icaseEq] at hb
  | cons k ks ih =>
    intro r z hb
    cases r with
    | nil => simp [noKwPre, icaseEq] at hb
    | cons a rs =>
      simp only [noKwPre, List.take_succ_cons, List.length_cons,
        icaseEq_cons, Bool.not_eq_true', Bool.and_eq_false_iff] at hb
      rw [List.cons_append, icaseStarts]
      rcases hb with hb | hb
      · rw [char_beq_comm, hb, Bool.false_and]
      · rw [ih rs z (by simp [noKwPre, hb]), Bool.and_false]

/-- A word-lowering keyword never matches at a non-word head. -/
theorem icaseStarts_headNW (k : Char) (ks t : List Char)
    (hk : isWordChar (Char.toLower k) = true) (ht : headNW t = true) :
    icaseStarts (k :: ks) t = false := by
  cases t with
  | nil => rfl
  | cons c cs =>
    simp only [headNW, Bool.not_eq_true'] at ht
    rw [icaseStarts, toLower_ne_of_nonword k c hk ht, Bool.false_and]

/-- Matching a word-lowering keyword against `w ++ t` does not depend on
`t` as long as `t` starts at a non-word character (or is empty). -/
theorem icaseStarts_word_append (kw : List Char) (hkw : kwWordLower kw = true) :
    ∀ w t t' : List Char, headNW t = true → headNW t' = true →
      icaseStarts kw (w ++ t) = icaseStarts kw (w ++ t') := by
  induction kw with
  | nil => intro w t t' _ _; rfl
  | cons k ks ih =>
    intro w t t' ht ht'
    have hk : isWordChar (Char.toLower k) = true := by
      simp only [kwWordLower, List.all_cons, Bool.and_eq_true] at hkw
      exact hkw.1
    have hks : kwWordLower ks = true := by
      simp only [kwWordLower, List.all_cons, Bool.and_eq_true] at hkw
      exact hkw.2
    cases w with
    | nil =>
      rw [List.nil_append, List.nil_append,
        icaseStarts_headNW k ks t hk ht, icaseStarts_headNW k ks t' hk ht']
    | cons a ws =>
      rw [List.cons_append, List.cons_append, icaseStarts, icaseStarts,
        ih hks ws t t' ht ht']

/-- Unfolding `reSub` on the empty list. -/
theorem reSub_nil (p : Pat) : reSub p [] = [] := by
  rw [reSub]

/-- Unfolding `reSub` at a non-word character. -/
theorem reSub_cons_nonword (p : Pat) (c : Char) (cs : List Char)
    (h : isWordChar c = false) : reSub p (c :: cs) = c :: reSub p cs := by
  rw [reSub, if_neg (by simp [h])]

/-- Unfolding `reSub` at a word character: the maximal head run is decided
as a whole. -/
theorem reSub_cons_word (p : Pat) (c : Char) (cs : List Char)
    (h : isWordChar c = true) :
    reSub p (c :: cs)
      = (if icaseEq (c :: cs.takeWhile isWordChar) p.lit
            && lookPass p (cs.dropWhile isWordChar)
         then p.repl else c :: cs.takeWhile isWordChar)
          ++ reSub p (cs.dropWhile isWordChar) := by
  rw [reSub, if_pos h]

/-- `reSub` preserves "starts non-word". -/
theorem reSub_headNW (p : Pat) (t : List Char) (h : headNW t = true) :
    headNW (reSub p t) = true := by
  cases t with
  | nil => rw [reSub_nil]; rfl
  | cons c cs =>
    simp only [headNW, Bool.not_eq_true'] at h
    rw [reSub_cons_nonword p c cs h]
    simpa [headNW] using h

/-- Head-run equation: scanning `w ++ t` for a whole word `w` decides `w`
against the literal with lookaheads evaluated on `t`. -/
theorem reSub_word_append (p : Pat) (w t : List Char) (hw : w ≠ [])
    (hall : w.all isWordChar = true) (ht : headNW t = true) :
    reSub p (w ++ t)
      = (if icaseEq w p.lit && lookPass p t then p.repl else w) ++ reSub p t := by
  match w, hw with
  | c :: ws, _ =>
    simp only [List.all_cons, Bool.and_eq_true] at hall
    have htw : List.takeWhile isWordChar (ws ++ t) = ws := by
      rw [takeWhile_append_nil isWordChar ws t (takeWhile_eq_nil_of_headNW t ht)]
      exact List.takeWhile_eq_self_iff.mpr (by
        intro x hx
        exact List.all_eq_true.mp hall.2 x hx)
    have hdw : List.dropWhile isWordChar (ws ++ t) = t := by
      rw [dropWhile_append_tail isWordChar ws t (takeWhile_eq_nil_of_headNW t ht)]
      rw [List.dropWhile_eq_nil_iff.mpr (by
        intro x hx
        exact List.all_eq_true.mp hall.2 x hx)]
      rfl
    rw [List.cons_append, reSub_cons_word p c (ws ++ t) hall.1, htw, hdw]

/-- What remains after dropping a word prefix starts at a non-word
character (or is empty). -/
theorem headNW_dropWhile (cs : List Char) :
    headNW (cs.dropWhile isWordChar) = true := by
  induction cs with
  | nil => rfl
  | cons c cs ih =>
    rw [List.dropWhile_cons]
    split_ifs with h
    · exact ih
    · simpa [headNW] using Bool.eq_false_iff.mpr h

/-- Scanning `r ++ t` where every matching word run of `r` reproduces the
replacement leaves `r` unchanged and continues on `t`. -/
theorem reSub_repl_append (p : Pat) :
    ∀ (n : Nat) (r t : List Char), r.length ≤ n →
      (∀ w ∈ wordRuns r, icaseEq w p.lit = true → w = p.repl) →
      headNW t = true →
      reSub p (r ++ t) = r ++ reSub p t := by
  intro n
  induction n with
  | zero =>
    intro r t hr _ _
    rw [Nat.le_zero, List.length_eq_zero] at hr
    subst hr
    rfl
  | succ n ih =>
    intro r t hr hok ht
    match r with
    | [] => rfl
    | c :: cs =>
      by_cases hc : isWordChar c = true
      · have htw := takeWhile_eq_nil_of_headNW t ht
        have h1 : List.takeWhile isWordChar (cs ++ t) = List.takeWhile isWordChar cs :=
          takeWhile_append_nil _ cs t htw
        have h2 : List.dropWhile isWordChar (cs ++ t)
            = List.dropWhile isWordChar cs ++ t :=
          dropWhile_append_tail _ cs t htw
        rw [List.cons_append, reSub_cons_word p c (cs ++ t) hc, h1, h2]
        have hmem : (c :: List.takeWhile isWordChar cs) ∈ wordRuns (c :: cs) := by
          rw [wordRuns_cons_word c cs hc]
          exact List.mem_cons_self _ _
        have hruns : ∀ w' ∈ wordRuns (List.dropWhile isWordChar cs),
            icaseEq w' p.lit = true → w' = p.repl := by
          intro w' hw' h'
          refine hok w' ?_ h'
          rw [wordRuns_cons_word c cs hc]
          exact List.mem_cons_of_mem _ hw'
        have hlen : (List.dropWhile isWordChar cs).length ≤ n := by
          have := (List.dropWhile_suffix (l := cs) isWordChar).sublist.length_le
          simp only [List.length_cons] at hr
          omega
        have hrec := ih (List.dropWhile isWordChar cs) t hlen hruns ht
        have hkeep : (if icaseEq (c :: List.takeWhile isWordChar cs) p.lit
              && lookPass p (List.dropWhile isWordChar cs ++ t)
            then p.repl else c :: List.takeWhile isWordChar cs)
            = c :: List.takeWhile isWordChar cs := by
          split_ifs with h
          · simp only [Bool.and_eq_true] at h
            exact (hok _ hmem h.1).symm
          · rfl
        rw [hkeep, hrec, ← List.append_assoc]
        congr 1
        rw [List.cons_append, List.takeWhile_append_dropWhile]
      · have hc' : isWordChar c = false := Bool.eq_false_iff.mpr hc
        rw [List.cons_append, reSub_cons_nonword p c _ hc']
        have : reSub p (cs ++ t) = cs ++ reSub p t := by
          refine ih cs t ?_ ?_ ht
          · simp only [List.length_cons] at hr; omega
          · intro w hw h'
            exact hok w (by rw [wordRuns_cons_nonword c cs hc']; exact hw) h'
        rw [this, List.cons_append]

/-- A solid replacement is a cons cell with non-whitespace head. -/
theorem replHeadSolid_elim (q : Pat) (hsolid : replHeadSolid q = true) :
    ∃ r0 r', q.repl = r0 :: r' ∧ r0.isWhitespace = false := by
  rcases hq : q.repl with _ | ⟨r0, r'⟩
  · rw [replHeadSolid, hq] at hsolid
    exact absurd hsolid (by simp)
  · refine ⟨r0, r', rfl, ?_⟩
    rw [replHeadSolid, hq] at hsolid
    simpa using hsolid

/-- One `reSub` pass does not change whether `\s*kw` matches: the scanned
whitespace prefix is copied verbatim, and the first run or replacement
after it can never start a match of the keyword. -/
theorem afterWs_reSub (q : Pat) (kw : List Char)
    (hkw : kwWordLower kw = true)
    (hlit : noKwPre kw q.lit = true) (hrepl : noKwPre kw q.repl = true)
    (hsolid : replHeadSolid q = true) :
    ∀ s, afterWs kw (reSub q s) = afterWs kw s := by
  intro s
  induction s with
  | nil => rw [reSub_nil]
  | cons c cs ih =>
    by_cases hc : isWordChar c = true
    · have hcws : c.isWhitespace = false := wordChar_not_ws c hc
      have hrnw : headNW (List.dropWhile isWordChar cs) = true := headNW_dropWhile cs
      have hwr : (c :: List.takeWhile isWordChar cs) ++ List.dropWhile isWordChar cs
          = c :: cs := by
        rw [List.cons_append, List.takeWhile_append_dropWhile]
      have hrhs : afterWs kw (c :: cs) = icaseStarts kw (c :: cs) := by
        rw [afterWs, if_neg (by simp [hcws])]
      rw [reSub_cons_word q c cs hc]
      by_cases hB : (icaseEq (c :: List.takeWhile isWordChar cs) q.lit
          && lookPass q (List.dropWhile isWordChar cs)) = true
      · rw [if_pos hB]
        have hic : icaseEq (c :: List.takeWhile isWordChar cs) q.lit = true := by
          simp only [Bool.and_eq_true] at hB
          exact hB.1
        have hw' : noKwPre kw (c :: List.takeWhile isWordChar cs) = true := by
          rw [noKwPre_icase kw _ q.lit hic]
          exact hlit
        have hrhs0 : icaseStarts kw (c :: cs) = false := by
          rw [← hwr]
          exact blocked_append kw _ _ hw'
        obtain ⟨r0, r', hq, hr0⟩ := replHeadSolid_elim q hsolid
        rw [hrhs, hrhs0, hq, List.cons_append, afterWs, if_neg (by simp [hr0])]
        rw [← List.cons_append, ← hq]
        exact blocked_append kw q.repl _ hrepl
      · rw [if_neg hB, hrhs, ← hwr, List.cons_append, List.cons_append]
        rw [show (c :: (List.takeWhile isWordChar cs
              ++ reSub q (List.dropWhile isWordChar cs)))
            = (c :: List.takeWhile isWordChar cs)
              ++ reSub q (List.dropWhile isWordChar cs) from rfl]
        rw [show (c :: (List.takeWhile isWordChar cs ++ List.dropWhile isWordChar cs))
            = (c :: List.takeWhile isWordChar cs) ++ List.dropWhile isWordChar cs
            from rfl]
        have hlhs : afterWs kw ((c :: List.takeWhile isWordChar cs)
            ++ reSub q (List.dropWhile isWordChar cs))
            = icaseStarts kw ((c :: List.takeWhile isWordChar cs)
                ++ reSub q (List.dropWhile isWordChar cs)) := by
          rw [List.cons_append, afterWs, if_neg (by simp [hcws])]
        rw [hlhs]
        exact icaseStarts_word_append kw hkw _ _ _
          (reSub_headNW q _ hrnw) hrnw
    · have hc' : isWordChar c = false := Bool.eq_false_iff.mpr hc
      rw [reSub_cons_nonword q c cs hc']
      by_cases hws : c.isWhitespace = true
      · rw [afterWs, afterWs, if_pos hws, if_pos hws]
        exact ih
      · have hws' : c.isWhitespace = false := Bool.eq_false_iff.mpr hws
        rw [afterWs, afterWs, if_neg (by simp [hws']), if_neg (by simp [hws'])]
        cases kw with
        | nil => rfl
        | cons k ks =>
          have hk : isWordChar (Char.toLower k) = true := by
            simp only [kwWordLower, List.all_cons, Bool.and_eq_true] at hkw
            exact hkw.1
          rw [icaseStarts_headNW k ks _ hk (by simpa [headNW] using hc'),
            icaseStarts_headNW k ks _ hk (by simpa [headNW] using hc')]

/-- One `reSub` pass does not change whether `\s+kw` matches. -/
theorem wsThen_reSub (q : Pat) (kw : List Char)
    (hkw : kwWordLower kw = true)
    (hlit : noKwPre kw q.lit = true) (hrepl : noKwPre kw q.repl = true)
    (hsolid : replHeadSolid q = true) :
    ∀ t, wsThen kw (reSub q t) = wsThen kw t := by
  intro t
  cases t with
  | nil => rw [reSub_nil]
  | cons c cs =>
    by_cases hc : isWordChar c = true
    · have hcws : c.isWhitespace = false := wordChar_not_ws c hc
      have hrhs : wsThen kw (c :: cs) = false := by
        rw [wsThen, hcws, Bool.false_and]
      rw [reSub_cons_word q c cs hc, hrhs]
      by_cases hB : (icaseEq (c :: List.takeWhile isWordChar cs) q.lit
          && lookPass q (List.dropWhile isWordChar cs)) = true
      · rw [if_pos hB]
        obtain ⟨r0, r', hq, hr0⟩ := replHeadSolid_elim q hsolid
        rw [hq, List.cons_append, wsThen, hr0, Bool.false_and]
      · rw [if_neg hB, List.cons_append, wsThen, hcws, Bool.false_and]
    · have hc' : isWordChar c = false := Bool.eq_false_iff.mpr hc
      rw [reSub_cons_nonword q c cs hc', wsThen, wsThen,
        afterWs_reSub q kw hkw hlit hrepl hsolid cs]

/-- One `reSub` pass changes no lookahead verdict of any pattern. -/
theorem lookPass_reSub (q p : Pat)
    (hlitA : noKwPre "as".data q.lit = true)
    (hreplA : noKwPre "as".data q.repl = true)
    (hlitF : noKwPre "from".data q.lit = true)
    (hreplF : noKwPre "from".data q.repl = true)
    (hsolid : replHeadSolid q = true) :
    ∀ t, lookPass p (reSub q t) = lookPass p t := by
  intro t
  unfold lookPass
  rw [wsThen_reSub q "as".data (by decide) hlitA hreplA hsolid t,
    wsThen_reSub q "from".data (by decide) hlitF hreplF hsolid t]

/-- A self-aligned pattern whose replacement rebuilds a matching run must
have replaced it identically: from `p.repl ++ A = w ++ B` with
`w` case-matching the literal, conclude `w = p.repl` and `A = B`. -/
theorem align_of_append (p : Pat) (hsa : selfAlign p = true)
    (w A B : List Char) (hic : icaseEq w p.lit = true)
    (heq : p.repl ++ A = w ++ B) : w = p.repl ∧ A = B := by
  have hlw : w.length = p.lit.length := icaseEq_length _ _ hic
  simp only [selfAlign, Bool.or_eq_true, beq_iff_eq, Bool.not_eq_true'] at hsa
  rcases hsa with hlen | hmis
  · obtain ⟨h1, h2⟩ := List.append_inj heq (by omega)
    exact ⟨h1.symm, h2⟩
  · exfalso
    by_cases hle : p.repl.length ≤ w.length
    · have hwt : p.repl = w.take p.repl.length := by
        have h := congrArg (List.take p.repl.length) heq
        rwa [List.take_append_of_le_length (Nat.le_refl _),
          List.take_append_of_le_length hle, List.take_length] at h
      have h1 : p.repl.take p.lit.length = p.repl :=
        List.take_of_length_le (by omega)
      have h2 : icaseEq (w.take p.repl.length) (p.lit.take p.repl.length) = true :=
        icaseEq_take _ _ _ hic
      rw [h1] at hmis
      rw [← hwt] at h2
      rw [h2] at hmis
      exact Bool.noConfusion hmis
    · push_neg at hle
      have hwt : w = p.repl.take w.length := by
        have h := congrArg (List.take w.length) heq
        rw [List.take_append_of_le_length (Nat.le_of_lt hle),
          List.take_append_of_le_length (Nat.le_refl _), List.take_length] at h
        exact h.symm
      have h1 : p.lit.take p.repl.length = p.lit :=
        List.take_of_length_le (by omega)
      rw [h1, ← hlw, ← hwt, hic] at hmis
      exact Bool.noConfusion hmis

/-- Applying a well-behaved pattern once makes the string stable for it:
`reSub p (reSub p s) = reSub p s`. -/
theorem reSub_self_stable (p : Pat)
    (hlitA : noKwPre "as".data p.lit = true)
    (hreplA : noKwPre "as".data p.repl = true)
    (hlitF : noKwPre "from".data p.lit = true)
    (hreplF : noKwPre "from".data p.repl = true)
    (hsolid : replHeadSolid p = true)
    (hself : (∀ w ∈ wordRuns p.repl, icaseEq w p.lit = true → w = p.repl)) :
    ∀ (n : Nat) (s : List Char), s.length ≤ n →
      reSub p (reSub p s) = reSub p s := by
  intro n
  induction n with
  | zero =>
    intro s hs
    rw [Nat.le_zero, List.length_eq_zero] at hs
    subst hs
    rw [reSub_nil, reSub_nil]
  | succ n ih =>
    intro s hs
    match s with
    | [] => rw [reSub_nil, reSub_nil]
    | c :: cs =>
      by_cases hc : isWordChar c = true
      · rw [reSub_cons_word p c cs hc]
        have hrnw : headNW (List.dropWhile isWordChar cs) = true :=
          headNW_dropWhile cs
        have hlen : (List.dropWhile isWordChar cs).length ≤ n := by
          have := (List.dropWhile_suffix (l := cs) isWordChar).sublist.length_le
          simp only [List.length_cons] at hs
          omega
        have hrec := ih (List.dropWhile isWordChar cs) hlen
        by_cases hB : (icaseEq (c :: List.takeWhile isWordChar cs) p.lit
            && lookPass p (List.dropWhile isWordChar cs)) = true
        · rw [if_pos hB]
          rw [reSub_repl_append p p.repl.length p.repl _ (Nat.le_refl _) hself
            (reSub_headNW p _ hrnw), hrec]
        · rw [if_neg hB]
          have hall : (c :: List.takeWhile isWordChar cs).all isWordChar = true := by
            simp only [List.all_cons, Bool.and_eq_true]
            exact ⟨hc, List.all_eq_true.mpr (fun x hx =>
              List.mem_takeWhile_imp hx)⟩
          rw [reSub_word_append p _ _ (by simp) hall (reSub_headNW p _ hrnw)]
          rw [lookPass_reSub p p hlitA hreplA hlitF hreplF hsolid]
          rw [if_neg hB, hrec]
      · have hc' : isWordChar c = false := Bool.eq_false_iff.mpr hc
        rw [reSub_cons_nonword p c cs hc', reSub_cons_nonword p c _ hc']
        rw [ih cs (by simp only [List.length_cons] at hs; omega)]

/-- Applying a well-behaved pattern `q` preserves stability for `p`:
if `reSub p s = s` then `reSub p (reSub q s) = reSub q s`. -/
theorem reSub_preserve (p q : Pat)
    (hlitA : noKwPre "as".data q.lit = true)
    (hreplA : noKwPre "as".data q.repl = true)
    (hlitF : noKwPre "from".data q.lit = true)
    (hreplF : noKwPre "from".data q.repl = true)
    (hsolid : replHeadSolid q = true)
    (hsa : selfAlign p = true)
    (hpair : (∀ w ∈ wordRuns q.repl, icaseEq w p.lit = true → w = p.repl)) :
    ∀ (n : Nat) (s : List Char), s.length ≤ n →
      reSub p s = s → reSub p (reSub q s) = reSub q s := by
  intro n
  induction n with
  | zero =>
    intro s hs _
    rw [Nat.le_zero, List.length_eq_zero] at hs
    subst hs
    rw [reSub_nil, reSub_nil]
  | succ n ih =>
    intro s hs hstab
    match s with
    | [] => rw [reSub_nil, reSub_nil]
    | c :: cs =>
      by_cases hc : isWordChar c = true
      case neg =>
        have hc' : isWordChar c = false := Bool.eq_false_iff.mpr hc
        rw [reSub_cons_nonword p c cs hc'] at hstab
        have hrest : reSub p cs = cs := by
          injection hstab
        rw [reSub_cons_nonword q c cs hc', reSub_cons_nonword p c _ hc']
        rw [ih cs (by simp only [List.length_cons] at hs; omega) hrest]
      case pos =>
        have hrnw : headNW (List.dropWhile isWordChar cs) = true :=
          headNW_dropWhile cs
        have hwr : (c :: List.takeWhile isWordChar cs)
            ++ List.dropWhile isWordChar cs = c :: cs := by
          rw [List.cons_append, List.takeWhile_append_dropWhile]
        have hlen : (List.dropWhile isWordChar cs).length ≤ n := by
          have := (List.dropWhile_suffix (l := cs) isWordChar).sublist.length_le
          simp only [List.length_cons] at hs
          omega
        have hall : (c :: List.takeWhile isWordChar cs).all isWordChar = true := by
          simp only [List.all_cons, Bool.and_eq_true]
          exact ⟨hc, List.all_eq_true.mpr (fun x hx => List.mem_takeWhile_imp hx)⟩
        rw [reSub_cons_word p c cs hc] at hstab
        rw [reSub_cons_word q c cs hc]
        by_cases hBp : (icaseEq (c :: List.takeWhile isWordChar cs) p.lit
            && lookPass p (List.dropWhile isWordChar cs)) = true
        case pos =>
          rw [if_pos hBp] at hstab
          have hic : icaseEq (c :: List.takeWhile isWordChar cs) p.lit = true := by
            simp only [Bool.and_eq_true] at hBp
            exact hBp.1
          obtain ⟨hw, hrest⟩ := align_of_append p hsa _ _ _ hic
            (by rw [hstab, ← hwr])
          by_cases hBq : (icaseEq (c :: List.takeWhile isWordChar cs) q.lit
              && lookPass q (List.dropWhile isWordChar cs)) = true
          · rw [if_pos hBq]
            rw [reSub_repl_append p q.repl.length q.repl _ (Nat.le_refl _) hpair
              (reSub_headNW q _ hrnw)]
            rw [ih _ hlen hrest]
          · rw [if_neg hBq]
            rw [reSub_word_append p _ _ (by simp) hall (reSub_headNW q _ hrnw)]
            rw [lookPass_reSub q p hlitA hreplA hlitF hreplF hsolid]
            rw [if_pos hBp, ← hw, ih _ hlen hrest]
        case neg =>
          rw [if_neg hBp] at hstab
          rw [← hwr] at hstab
          have hrest := List.append_cancel_left hstab
          by_cases hBq : (icaseEq (c :: List.takeWhile isWordChar cs) q.lit
              && lookPass q (List.dropWhile isWordChar cs)) = true
          · rw [if_pos hBq]
            rw [reSub_repl_append p q.repl.length q.repl _ (Nat.le_refl _) hpair
              (reSub_headNW q _ hrnw)]
            rw [ih _ hlen hrest]
          · rw [if_neg hBq]
            rw [reSub_word_append p _ _ (by simp) hall (reSub_headNW q _ hrnw)]
            rw [lookPass_reSub q p hlitA hreplA hlitF hreplF hsolid]
            rw [if_neg hBp, ih _ hlen hrest]

/-- `applyPats` unfolding. -/
theorem applyPats_cons (q : Pat) (L : List Pat) (t : List Char) :
    applyPats (q :: L) t = applyPats L (reSub q t) := rfl

/-- Unpack the per-pattern side conditions. -/
theorem patOk_elim (p : Pat) (h : patOk p = true) :
    noKwPre "as".data p.lit = true ∧ noKwPre "as".data p.repl = true
      ∧ noKwPre "from".data p.lit = true ∧ noKwPre "from".data p.repl = true
      ∧ replHeadSolid p = true ∧ selfAlign p = true := by
  simp only [patOk, Bool.and_eq_true] at h
  exact ⟨h.1.1.1.1.1, h.1.1.1.1.2, h.1.1.1.2, h.1.1.2, h.1.2, h.2⟩

/-- Unpack the pairwise replacement condition. -/
theorem wordRunsOk_elim (p : Pat) (r : List Char) (h : wordRunsOk p r = true) :
    ∀ w ∈ wordRuns r, icaseEq w p.lit = true → w = p.repl := by
  intro w hw hic
  unfold wordRunsOk at h
  have h' := List.all_eq_true.mp h w hw
  rw [hic] at h'
  simpa using h'

/-- Stability for `p` survives a whole pass of well-behaved patterns. -/
theorem applyPats_preserve_stable (p : Pat) (hsa : selfAlign p = true) :
    ∀ (L : List Pat),
      (∀ q ∈ L, patOk q = true ∧ wordRunsOk p q.repl = true) →
      ∀ t, reSub p t = t → reSub p (applyPats L t) = applyPats L t := by
  intro L
  induction L with
  | nil => intro _ t ht; simpa [applyPats] using ht
  | cons q L' ih =>
    intro hL t ht
    obtain ⟨hqok, hqpair⟩ := hL q (List.mem_cons_self _ _)
    obtain ⟨h1, h2, h3, h4, h5, _⟩ := patOk_elim q hqok
    have hstep : reSub p (reSub q t) = reSub q t :=
      reSub_preserve p q h1 h2 h3 h4 h5 hsa
        (wordRunsOk_elim p q.repl hqpair) t.length t (Nat.le_refl _) ht
    rw [applyPats_cons]
    exact ih (fun r hr => hL r (List.mem_cons_of_mem _ hr)) (reSub q t) hstep

/-- After a full pass over a well-behaved pattern table, the result is
stable for every pattern of the table. -/
theorem applyPats_all_stable :
    ∀ (L : List Pat) (s : List Char),
      (∀ p ∈ L, patOk p = true) →
      (∀ p ∈ L, ∀ q ∈ L, wordRunsOk p q.repl = true) →
      ∀ p ∈ L, reSub p (applyPats L s) = applyPats L s := by
  intro L
  induction L with
  | nil => intro s _ _ p hp; simp at hp
  | cons q L' ih =>
    intro s hok hpair p hp
    rw [applyPats_cons]
    rcases List.mem_cons.mp hp with rfl | hp'
    · obtain ⟨h1, h2, h3, h4, h5, h6⟩ :=
        patOk_elim p (hok p (List.mem_cons_self _ _))
    -- p = q: one application establishes stability, later patterns keep it
      have hself := wordRunsOk_elim p p.repl
        (hpair p (List.mem_cons_self _ _) p (List.mem_cons_self _ _))
      have hstab : reSub p (reSub p s) = reSub p s :=
        reSub_self_stable p h1 h2 h3 h4 h5 hself s.length s (Nat.le_refl _)
      exact applyPats_preserve_stable p h6 L'
        (fun r hr => ⟨hok r (List.mem_cons_of_mem _ hr),
          hpair p (List.mem_cons_self _ _) r (List.mem_cons_of_mem _ hr)⟩)
        (reSub p s) hstab
    · exact ih (reSub q s)
        (fun r hr => hok r (List.mem_cons_of_mem _ hr))
        (fun a ha b hb => hpair a (List.mem_cons_of_mem _ ha)
          b (List.mem_cons_of_mem _ hb))
        p hp'

/-- A pass over patterns for which the input is already stable is the
identity. -/
theorem applyPats_id_of_stable :
    ∀ (L : List Pat) (t : List Char),
      (∀ p ∈ L, reSub p t = t) → applyPats L t = t := by
  intro L
  induction L with
  | nil => intro t _; rfl
  | cons q L' ih =>
    intro t h
    rw [applyPats_cons, h q (List.mem_cons_self _ _)]
    exact ih t (fun p hp => h p (List.mem_cons_of_mem _ hp))

/-- The concrete pattern table of `_fix_table_names` satisfies all side
conditions (checked by computation). -/
theorem fixPatterns_ok : patsOk fixPatterns = true := by
  decide

/-- C10: the deterministic name-normalisation pass `_fix_table_names` is
idempotent — applying it twice (as the planner does, once inside
`_extract_sql` and once in `sql_planner_node`) gives the same result as
applying it once, so the double application can neither change the result
nor corrupt already-canonical names. -/
theorem C10_fix_table_names_idempotent (s : String) :
    fix_table_names (fix_table_names s) = fix_table_names s := by
  unfold fix_table_names
  have hP := fixPatterns_ok
  unfold patsOk at hP
  have hall := List.all_eq_true.mp hP
  have hok : ∀ p ∈ fixPatterns, patOk p = true := by
    intro p hp
    have h := hall p hp
    rw [Bool.and_eq_true] at h
    exact h.1
  have hpair : ∀ p ∈ fixPatterns, ∀ q ∈ fixPatterns,
      wordRunsOk p q.repl = true := by
    intro p hp q hq
    have h := hall p hp
    rw [Bool.and_eq_true] at h
    exact List.all_eq_true.mp h.2 q hq
  show String.mk (applyPats fixPatterns (applyPats fixPatterns s.data))
      = String.mk (applyPats fixPatterns s.data)
  congr 1
  exact applyPats_id_of_stable fixPatterns _
    (fun p hp => applyPats_all_stable fixPatterns s.data hok hpair p hp)

end NL2SQL
